import Mathlib

/-!
Verification development for the document-to-graph extraction pipeline in
`src/lib/actions/graph-processor.ts` and the streaming wrapper in
`src/lib/actions/actions.ts`.

Texts handled by the chunker are embedded as `List Char` (a JavaScript string
is a sequence of UTF-16 units; all characters involved are plain BMP
characters, where the two notions of length agree).  Entity ids, type labels
and property values of the graph are embedded as Lean `String`.  JavaScript
numbers used for progress reporting are embedded as exact rationals `ℚ`; every
division performed by the code is reachable only with a positive denominator,
so exact arithmetic coincides with the floating-point evaluation for the
properties considered here.  The two language-model calls (`openai.chat...`)
are external oracles; they are embedded as explicit oracle-response parameters
(one outcome per call site), with a constructor per failure mode the source
distinguishes.
-/

/-- A JavaScript string, as a list of characters. -/
abbrev Str := List Char

/-- Whitespace test used by `String.prototype.trim`. -/
def isWS (c : Char) : Bool := c.isWhitespace

/-- Remove leading whitespace. -/
def trimLeft (s : Str) : Str := s.dropWhile isWS

/-- Remove trailing whitespace. -/
def trimRight (s : Str) : Str := (s.reverse.dropWhile isWS).reverse

/-- `s.trim()`: remove leading and trailing whitespace. -/
def strTrim (s : Str) : Str := trimRight (trimLeft s)

/-- Sentence-terminal punctuation of the splitting regex `/[.!?]+/`. -/
def isSentenceEnd (c : Char) : Bool := c == '.' || c == '!' || c == '?'

/-- Worker for `text.split(/[.!?]+/)`: `acc` holds the (reversed) characters of
the segment being scanned, `afterTerm` records whether the previous character
belonged to a terminator run (so a maximal run yields a single split point).
When `afterTerm` is true the accumulator is empty. -/
def splitGo : Str → Str → Bool → List Str
  | [], acc, _ => [acc.reverse]
  | c :: rest, acc, afterTerm =>
    if isSentenceEnd c then
      if afterTerm then splitGo rest [] true
      else acc.reverse :: splitGo rest [] true
    else splitGo rest (c :: acc) false

/-- `text.split(/[.!?]+/)` from `chunkText` (graph-processor.ts:38). -/
def splitSentences (text : Str) : List Str := splitGo text [] false

/-- State of the sentence-accumulation loop of `chunkText`. -/
structure ChunkSt where
  chunks : List Str
  currentChunk : Str
deriving DecidableEq, Repr

/-- Loop body of `chunkText` (graph-processor.ts:42-52): skip sentences that
trim to nothing; flush the buffer when appending the next trimmed sentence
plus the 2-character separator budget would exceed `maxChars` and the buffer
is non-empty; otherwise append the sentence followed by `". "`. -/
def chunkStep (maxChars : Nat) (st : ChunkSt) (sentence : Str) : ChunkSt :=
  let t := strTrim sentence
  if t.isEmpty then st
  else if maxChars < st.currentChunk.length + t.length + 2 ∧ 0 < st.currentChunk.length then
    { chunks := st.chunks ++ [strTrim st.currentChunk], currentChunk := t ++ ['.', ' '] }
  else
    { chunks := st.chunks, currentChunk := st.currentChunk ++ t ++ ['.', ' '] }

/-- `chunkText` (graph-processor.ts:36-59). -/
def chunkText (text : Str) (maxChars : Nat) : List Str :=
  let st := (splitSentences text).foldl (chunkStep maxChars) ⟨[], []⟩
  let chunks := if (strTrim st.currentChunk).isEmpty then st.chunks
                else st.chunks ++ [strTrim st.currentChunk]
  if 0 < chunks.length then chunks else [text]

/-- The trimmed non-empty sentences of a text, in order: exactly the sentences
the `chunkText` loop does not skip. -/
def sents (text : Str) : List Str :=
  ((splitSentences text).map strTrim).filter (fun s => !s.isEmpty)

/-- The buffer contents produced by appending each sentence of `g` followed by
`". "`, as the `chunkText` loop builds `currentChunk`. -/
def bufOf : List Str → Str
  | [] => []
  | s :: rest => s ++ '.' :: ' ' :: bufOf rest

/-- Properties record attached to nodes and relationships.  The source stores
a `description` for every element and additionally a `length` on document
nodes; no other key is ever written by the pipeline. -/
structure Props where
  description : String
  length : Option Nat
deriving DecidableEq, Repr

/-- `GraphNode` (types.ts:11-15). -/
structure GraphNode where
  id : String
  type : String
  properties : Props
deriving DecidableEq, Repr

/-- `GraphRelationship` (types.ts:17-22). -/
structure GraphRelationship where
  source : String
  target : String
  type : String
  properties : Props
deriving DecidableEq, Repr

/-- `GraphData` (types.ts:24-27). -/
structure GraphData where
  nodes : List GraphNode
  relationships : List GraphRelationship
deriving DecidableEq, Repr

/-- `entityMapping.get(id) || id` (graph-processor.ts:215,229-230): a missing
key and the empty string (which is falsy in JavaScript) both fall back to the
original id. -/
def resolveId (m : List (String × String)) (i : String) : String :=
  match m.lookup i with
  | some v => if v.isEmpty then i else v
  | none => i

/-- Node pass of `consolidateGraph` (graph-processor.ts:212-222): resolve each
id through the mapping and keep only the first-seen node per canonical id,
rewriting its id.  The accumulator lists the values of `nodeMap` in insertion
order; its ids are exactly the map's keys. -/
def nodeStep (m : List (String × String)) (acc : List GraphNode) (node : GraphNode) :
    List GraphNode :=
  let cid := resolveId m node.id
  if ∃ n ∈ acc, n.id = cid then acc else acc ++ [{ node with id := cid }]

/-- The full node pass of `consolidateGraph`. -/
def nodePass (m : List (String × String)) (allNodes : List GraphNode) : List GraphNode :=
  allNodes.foldl (nodeStep m) []

/-- The dedup key `` `${canonicalSource}|${rel.type}|${canonicalTarget}` ``
(graph-processor.ts:238). -/
def relKey (s ty t : String) : String := s ++ "|" ++ ty ++ "|" ++ t

/-- The dedup key of an already-resolved relationship. -/
def keyOf (r : GraphRelationship) : String := relKey r.source r.type r.target

/-- Relationship pass body of `consolidateGraph` (graph-processor.ts:228-247):
resolve both endpoints, skip self-loops, skip dangling references (an endpoint
absent from the final node map), skip key duplicates, otherwise keep the
relationship with rewritten endpoints.  The key set is exactly the set of keys
of the kept relationships, so membership is checked against the accumulator. -/
def relStep (m : List (String × String)) (nodes : List GraphNode)
    (acc : List GraphRelationship) (rel : GraphRelationship) : List GraphRelationship :=
  let cs := resolveId m rel.source
  let ct := resolveId m rel.target
  if cs = ct then acc
  else if ¬ (∃ n ∈ nodes, n.id = cs) ∨ ¬ (∃ n ∈ nodes, n.id = ct) then acc
  else if ∃ p ∈ acc, keyOf p = relKey cs rel.type ct then acc
  else acc ++ [{ rel with source := cs, target := ct }]

/-- The full relationship pass of `consolidateGraph`. -/
def relPass (m : List (String × String)) (nodes : List GraphNode)
    (allRelationships : List GraphRelationship) : List GraphRelationship :=
  allRelationships.foldl (relStep m nodes) []

/-- `consolidateGraph` (graph-processor.ts:206-253). -/
def consolidateGraph (allNodes : List GraphNode) (allRelationships : List GraphRelationship)
    (entityMapping : List (String × String)) : GraphData :=
  let nodes := nodePass entityMapping allNodes
  ⟨nodes, relPass entityMapping nodes allRelationships⟩

/-- An entity of the structured-extraction response schema
(`KnowledgeGraphExtraction`, graph-processor.ts:11-16). -/
structure RawEntity where
  name : String
  type : String
  description : String
deriving DecidableEq, Repr

/-- A relationship of the structured-extraction response schema
(graph-processor.ts:17-22). -/
structure RawRelationship where
  source : String
  target : String
  type : String
  description : String
deriving DecidableEq, Repr

/-- Outcome of one structured-extraction oracle call: the call may throw
(transport error, caught at graph-processor.ts:114), may return a response
whose `parsed` field is null (graph-processor.ts:94), or may succeed. -/
inductive OracleResponse where
  | failure
  | nullParsed
  | ok (entities : List RawEntity) (relationships : List RawRelationship)
deriving DecidableEq, Repr

/-- Extraction result accumulated per chunk. -/
structure Extraction where
  nodes : List GraphNode
  relationships : List GraphRelationship
deriving DecidableEq, Repr

/-- `extractFromChunk` (graph-processor.ts:62-118): convert a successful
oracle response to graph format; a thrown error or an unparseable response
degrades to the empty result.  `text` and the allowed vocabularies only feed
the oracle prompt; `response` is the outcome of that call. -/
def extractFromChunk (text : Str) (allowedEntities allowedRelationships : List String)
    (response : OracleResponse) : Extraction :=
  match text, allowedEntities, allowedRelationships, response with
  | _, _, _, .failure => ⟨[], []⟩
  | _, _, _, .nullParsed => ⟨[], []⟩
  | _, _, _, .ok es rs =>
    ⟨es.map (fun e => ⟨e.name, e.type, ⟨e.description, none⟩⟩),
     rs.map (fun r => ⟨r.source, r.target, r.type, ⟨r.description, none⟩⟩)⟩

/-- One cluster of the entity-merging response schema (`EntityMerging`,
graph-processor.ts:26-33).  The `type` field of the schema is never read by
the code. -/
structure MergedEntity where
  canonicalName : String
  variations : List String
  type : String
deriving DecidableEq, Repr

/-- `entitiesByType` (graph-processor.ts:130-137): a `Map` from type to the
ids of the nodes carrying it, keys in first-seen order, ids appended in input
order. -/
def entitiesByType (nodes : List GraphNode) : List (String × List String) :=
  nodes.foldl (fun acc node =>
    if acc.any (fun p => p.1 == node.type) then
      acc.map (fun p => if p.1 == node.type then (p.1, p.2 ++ [node.id]) else p)
    else acc ++ [(node.type, [node.id])]) []

/-- `[...new Set(entities)]` (graph-processor.ts:146): deduplicate keeping the
first occurrence of each name, in order. -/
def uniqueFirst (l : List String) : List String :=
  l.foldl (fun acc x => if x ∈ acc then acc else acc ++ [x]) []

/-- `entityMapping.set(k, v)` on a JavaScript `Map` held as an insertion-order
association list: overwrite in place if the key exists, else append. -/
def mapSet (m : List (String × String)) (k v : String) : List (String × String) :=
  if m.any (fun p => p.1 == k) then m.map (fun p => if p.1 == k then (k, v) else p)
  else m ++ [(k, v)]

/-- Record the clusters of one merging response (graph-processor.ts:184-190):
every variation other than its cluster's canonical name is mapped to that
canonical name. -/
def applyMerged (m : List (String × String)) (resp : List MergedEntity) :
    List (String × String) :=
  resp.foldl (fun m me =>
    me.variations.foldl (fun m v =>
      if v = me.canonicalName then m else mapSet m v me.canonicalName) m) m

/-- Body of the per-type loop of `mergeEntitiesWithLLM`
(graph-processor.ts:143-199), acting on the pair (mapping, progress-events).
The progress value `(typeIndex / entityTypes.length) * 100` is reported before
the group-size check; a group with at most one unique name, or a failed or
unparseable oracle call (`mergeO typeIndex = none`), contributes no
mappings. -/
def mergeStep (mergeO : Nat → Option (List MergedEntity)) (entityTypes : List String)
    (ebt : List (String × List String)) (st : List (String × String) × List ℚ)
    (typeIndex : Nat) : List (String × String) × List ℚ :=
  let type := entityTypes.getD typeIndex ""
  let entities := (ebt.lookup type).getD []
  let uniqueEntities := uniqueFirst entities
  let es := st.2 ++ [(typeIndex : ℚ) / (entityTypes.length : ℚ) * 100]
  if uniqueEntities.length ≤ 1 then (st.1, es)
  else
    match mergeO typeIndex with
    | none => (st.1, es)
    | some resp => (applyMerged st.1 resp, es)

/-- `mergeEntitiesWithLLM` (graph-processor.ts:121-203), returning the
variation-to-canonical mapping together with the progress values passed to its
callback (messages elided; no claim inspects them).  With at most one node the
function returns before any callback fires. -/
def mergeEntitiesWithLLM (mergeO : Nat → Option (List MergedEntity))
    (allNodes : List GraphNode) : List (String × String) × List ℚ :=
  if allNodes.length ≤ 1 then ([], [])
  else
    let entityTypes := (entitiesByType allNodes).map Prod.fst
    let r := (List.range entityTypes.length).foldl
      (mergeStep mergeO entityTypes (entitiesByType allNodes)) ([], [(0 : ℚ)])
    (r.1, r.2 ++ [100])

/-- `documentNames?.[index] || \x60Document N\x60` (graph-processor.ts:273,292):
a missing array, an out-of-range index, and an empty name (falsy) all fall
back to the positional name. -/
def documentName (names : Option (List String)) (i : Nat) : String :=
  match names with
  | some ns =>
    match ns.get? i with
    | some nm => if nm.isEmpty then "Document " ++ toString (i + 1) else nm
    | none => "Document " ++ toString (i + 1)
  | none => "Document " ++ toString (i + 1)

/-- The synthesized document nodes (graph-processor.ts:272-279), one per input
text, in input order. -/
def mkDocumentNodes (texts : List Str) (names : Option (List String)) : List GraphNode :=
  texts.enum.map (fun p =>
    { id := documentName names p.1, type := "DOCUMENT",
      properties := ⟨"Source document with " ++ toString p.2.length ++ " characters",
                     some p.2.length⟩ })

/-- Accumulator state of the orchestrator's extraction loops.  `events` lists
the progress values passed to the (optional) progress callback so far, in
order; messages and the `details` payload are elided — no claim inspects
them. -/
structure OrchState where
  allNodes : List GraphNode
  allRelationships : List GraphRelationship
  events : List ℚ
  processedChunks : Nat
deriving Repr

/-- Body of the per-chunk loop (graph-processor.ts:306-353): report
`(processedChunks / totalChunks) * 70`, extract from the chunk, append the
extracted nodes and relationships, append one CONTAINS relationship from the
document node to each extracted node, and count the chunk as processed. -/
def processChunk (outcome : OracleResponse) (chunk : Str)
    (allowedEntities allowedRelationships : List String) (documentId : String)
    (totalChunks : Nat) (st : OrchState) : OrchState :=
  let ex := extractFromChunk chunk allowedEntities allowedRelationships outcome
  let containsRels := ex.nodes.map (fun n =>
    ({ source := documentId, target := n.id, type := "CONTAINS",
       properties := ⟨"Document contains this " ++ n.type.toLower, none⟩ } : GraphRelationship))
  { allNodes := st.allNodes ++ ex.nodes
    allRelationships := st.allRelationships ++ ex.relationships ++ containsRels
    events := st.events ++ [(st.processedChunks : ℚ) / (totalChunks : ℚ) * 70]
    processedChunks := st.processedChunks + 1 }

/-- Body of the per-document loop (graph-processor.ts:290-354): report the
document-level progress value, then run the chunk loop; `outs j` is the oracle
outcome of the extraction call for chunk `j` of this document. -/
def processDoc (outs : Nat → OracleResponse)
    (allowedEntities allowedRelationships : List String) (documentId : String)
    (totalChunks : Nat) (chunks : List Str) (st : OrchState) : OrchState :=
  let st1 : OrchState :=
    { st with events := st.events ++ [(st.processedChunks : ℚ) / (totalChunks : ℚ) * 70] }
  chunks.enum.foldl (fun s p =>
    processChunk (outs p.1) p.2 allowedEntities allowedRelationships documentId totalChunks s) st1

/-- Result of one orchestrator run: the returned graph, the progress values
passed to the callback in order, and whether `mergeEntitiesWithLLM` (the
Entity Resolver) was invoked. -/
structure RunOutput where
  graph : GraphData
  events : List ℚ
  resolverInvoked : Bool
deriving Repr

/-- The total chunk count `totalChunks` of a run (graph-processor.ts:285-286). -/
def orchTotalChunks (documentTexts : List Str) : Nat :=
  ((documentTexts.map (fun t => chunkText t 8000)).map List.length).sum

/-- The accumulator state after the extraction loops of `processDocumentsToGraph`
(graph-processor.ts:268-354): document nodes synthesized first, initial progress
report 0, then every document processed in order. -/
def orchSt1 (extractO : Nat → Nat → OracleResponse) (documentTexts : List Str)
    (allowedEntities allowedRelationships : List String)
    (documentNames : Option (List String)) : OrchState :=
  (documentTexts.map (fun t => chunkText t 8000)).enum.foldl (fun s p =>
    processDoc (extractO p.1) allowedEntities allowedRelationships
      (documentName documentNames p.1) (orchTotalChunks documentTexts) p.2 s)
    ⟨mkDocumentNodes documentTexts documentNames, [], [(0 : ℚ)], 0⟩

/-- `processDocumentsToGraph` (graph-processor.ts:256-394).  `extractO i j` is
the outcome of the extraction oracle call for chunk `j` of document `i`;
`mergeO k` is the outcome of the merging oracle call for type group `k`.
Progress 0 is reported after synthesizing the document nodes, chunk progress
is scaled to the 0-70 range, 70 is reported after extraction; with no
non-document entity accumulated the run short-circuits at 100, otherwise 75 is
reported, the resolver's callback values are rescaled by
`75 + progress * 0.15`, then 90 and 100. -/
def processDocumentsToGraph (extractO : Nat → Nat → OracleResponse)
    (mergeO : Nat → Option (List MergedEntity)) (documentTexts : List Str)
    (allowedEntities allowedRelationships : List String)
    (documentNames : Option (List String)) : RunOutput :=
  let documentNodes := mkDocumentNodes documentTexts documentNames
  let st1 := orchSt1 extractO documentTexts allowedEntities allowedRelationships documentNames
  let evs2 := st1.events ++ [(70 : ℚ)]
  if st1.allNodes.length ≤ documentNodes.length then
    ⟨⟨documentNodes, []⟩, evs2 ++ [100], false⟩
  else
    let nonDocumentNodes := st1.allNodes.filter (fun nd => nd.type != "DOCUMENT")
    let merged := mergeEntitiesWithLLM mergeO nonDocumentNodes
    let wrapped := merged.2.map (fun p => 75 + p * (15 / 100 : ℚ))
    let finalGraph := consolidateGraph st1.allNodes st1.allRelationships merged.1
    ⟨finalGraph, evs2 ++ [75] ++ wrapped ++ [90, 100], true⟩

/-- The extraction calls made by a run, in call order: one (chunk text, oracle
outcome) pair per chunk of each document. -/
def chunkCalls (extractO : Nat → Nat → OracleResponse) (texts : List Str) :
    List (Str × OracleResponse) :=
  ((texts.map (fun t => chunkText t 8000)).enum).flatMap (fun p =>
    p.2.enum.map (fun q => (q.2, extractO p.1 q.1)))

/-- `processDocumentsToGraphWithProgress` (actions.ts:245-266): reports 0 to
its own callback, runs the core pipeline WITHOUT forwarding the callback (so
none of the core run's progress values reach it), then reports 100.  The
second component lists the values its callback receives. -/
def processDocumentsToGraphWithProgress (extractO : Nat → Nat → OracleResponse)
    (mergeO : Nat → Option (List MergedEntity)) (documentTexts : List Str)
    (allowedEntities allowedRelationships : List String)
    (documentNames : Option (List String)) : GraphData × List ℚ :=
  let result := processDocumentsToGraph extractO mergeO documentTexts
    allowedEntities allowedRelationships documentNames
  (result.graph, [(0 : ℚ)] ++ [] ++ [(100 : ℚ)])

/-- A relationship with both endpoints rewritten to canonical ids
(graph-processor.ts:229-230,241-245). -/
def resolveRel (m : List (String × String)) (rel : GraphRelationship) : GraphRelationship :=
  { rel with source := resolveId m rel.source, target := resolveId m rel.target }

/-- The resolved relationships that survive the self-loop and dangling-endpoint
guards of the relationship pass, in input order (before deduplication). -/
def survivingRels (m : List (String × String)) (nodes : List GraphNode)
    (rs : List GraphRelationship) : List GraphRelationship :=
  (rs.map (resolveRel m)).filter (fun r =>
    decide (r.source ≠ r.target ∧ (∃ n ∈ nodes, n.id = r.source) ∧ ∃ n ∈ nodes, n.id = r.target))

/-- One step of first-occurrence deduplication by dedup key. -/
def dedupStep (acc : List GraphRelationship) (r : GraphRelationship) :
    List GraphRelationship :=
  if ∃ p ∈ acc, keyOf p = keyOf r then acc else acc ++ [r]

/-- Reference deduplication keeping the first relationship per dedup key, the
string `source|type|target`. -/
def dedupByKeyFirst (rs : List GraphRelationship) : List GraphRelationship :=
  rs.foldl dedupStep []

/-- Modelled from the spec: deduplication by the exact `(source, type, target)`
triple, keeping the first occurrence — the behaviour claim C5 ascribes to the
relationship pass. -/
def dedupByTripleFirst (rs : List GraphRelationship) : List GraphRelationship :=
  rs.foldl (fun acc r =>
    if ∃ p ∈ acc, p.source = r.source ∧ p.type = r.type ∧ p.target = r.target then acc
    else acc ++ [r]) []

/-- Claim C1 as stated, instantiated at one input: any two raw input nodes of
different types remain distinct nodes of the consolidated graph — each is
represented by a node carrying its canonical id, and the two representatives
differ. -/
def crossTypeClaim (ns : List GraphNode) (rs : List GraphRelationship)
    (m : List (String × String)) : Prop :=
  ∀ n1 ∈ ns, ∀ n2 ∈ ns, n1.type ≠ n2.type →
    ∃ m1 ∈ (consolidateGraph ns rs m).nodes, ∃ m2 ∈ (consolidateGraph ns rs m).nodes,
      m1.id = resolveId m n1.id ∧ m2.id = resolveId m n2.id ∧ m1 ≠ m2

/-- Claim C3 as stated, instantiated at one input: every chunk fits in
`maxChars` except a chunk made of one single sentence that alone exceeds the
budget (the sentence with its restored terminal period). -/
def chunkBoundClaim (text : Str) (maxChars : Nat) : Prop :=
  ∀ c ∈ chunkText text maxChars,
    c.length ≤ maxChars ∨ ∃ s ∈ sents text, c = s ++ ['.'] ∧ maxChars < c.length

/-- Claim C5 as stated, instantiated at one input: the relationship pass keeps
exactly the first surviving relationship per `(source, type, target)`
triple. -/
def tripleDedupClaim (ns : List GraphNode) (rs : List GraphRelationship)
    (m : List (String × String)) : Prop :=
  (consolidateGraph ns rs m).relationships =
    dedupByTripleFirst (survivingRels m (nodePass m ns) rs)

/-- A string in the image of `strTrim`, non-empty: the shape of every sentence
the `chunkText` loop actually appends to a buffer. -/
def Sentence (s : Str) : Prop := (∃ t, s = strTrim t) ∧ s ≠ []

/-- Size invariant of a flushed chunk group: its chunk fits the budget unless
the group is a single sentence. -/
def SizeOk (maxChars : Nat) (g : List Str) : Prop :=
  (strTrim (bufOf g)).length ≤ maxChars ∨ ∃ s, g = [s]

/-- Size invariant of the pending buffer of the `chunkText` loop. -/
def PendingOk (maxChars : Nat) (p : List Str) : Prop :=
  p = [] ∨ (bufOf p).length ≤ maxChars ∨ ∃ s, p = [s]

/-- Well-formedness of a progress-event list: monotonically non-decreasing,
all values in `[0, 100]`, ending at `lv`. -/
def evOk (l : List ℚ) (lv : ℚ) : Prop :=
  l.Chain' (· ≤ ·) ∧ (∀ e ∈ l, 0 ≤ e ∧ e ≤ 100) ∧ l.getLast? = some lv

/-! ### Chunker lemmas -/

lemma strTrim_length_le (s : Str) : (strTrim s).length ≤ s.length := by
  have h1 : (trimLeft s).length ≤ s.length := (List.dropWhile_sublist isWS).length_le
  have h2 : (trimRight (trimLeft s)).length ≤ (trimLeft s).length := by
    unfold trimRight
    simpa using (List.dropWhile_sublist (l := (trimLeft s).reverse) isWS).length_le
  exact le_trans h2 h1

lemma trimLeft_head_not_ws {s : Str} {c : Char} {r : Str} (h : trimLeft s = c :: r) :
    isWS c = false := by
  induction s with
  | nil => simp [trimLeft] at h
  | cons a t ih =>
    by_cases ha : isWS a
    · exact ih (by simpa [trimLeft, List.dropWhile_cons, ha] using h)
    · have : a :: t = c :: r := by simpa [trimLeft, List.dropWhile_cons, ha] using h
      cases this
      simpa using ha

lemma trimRight_prefix (s : Str) : ∃ u, s = trimRight s ++ u := by
  refine ⟨(s.reverse.takeWhile isWS).reverse, ?_⟩
  unfold trimRight
  have h : s.reverse = s.reverse.takeWhile isWS ++ s.reverse.dropWhile isWS :=
    (List.takeWhile_append_dropWhile (p := isWS) (l := s.reverse)).symm
  have h2 := congrArg List.reverse h
  rw [List.reverse_reverse, List.reverse_append] at h2
  exact h2

lemma sentence_head {s : Str} (hs : Sentence s) : ∃ c r, s = c :: r ∧ isWS c = false := by
  obtain ⟨⟨t, hst⟩, hne⟩ := hs
  cases hsc : s with
  | nil => exact absurd hsc hne
  | cons c r =>
    refine ⟨c, r, rfl, ?_⟩
    obtain ⟨u, hu⟩ := trimRight_prefix (trimLeft t)
    have h2 : s = trimRight (trimLeft t) := hst
    rw [hsc] at h2
    rw [← h2] at hu
    have htt : trimLeft t = c :: (r ++ u) := by simpa using hu
    exact trimLeft_head_not_ws htt

lemma trimRight_dot_space (m : Str) : trimRight (m ++ ['.', ' ']) = m ++ ['.'] := by
  unfold trimRight
  have hsp : isWS ' ' = true := by decide
  have hdot : isWS '.' = false := by decide
  simp [List.reverse_append, List.dropWhile_cons, hsp, hdot]

lemma bufOf_append (g : List Str) (s : Str) :
    bufOf (g ++ [s]) = bufOf g ++ s ++ ['.', ' '] := by
  induction g with
  | nil => simp [bufOf]
  | cons a t ih => simp [bufOf, ih]

lemma bufOf_concat_form {g : List Str} (h : g ≠ []) : ∃ m, bufOf g = m ++ ['.', ' '] := by
  rcases List.eq_nil_or_concat g with rfl | ⟨L, b, rfl⟩
  · exact absurd rfl h
  · exact ⟨bufOf L ++ b, by simpa using bufOf_append L b⟩

lemma bufOf_pos {p : List Str} (h : p ≠ []) : 0 < (bufOf p).length := by
  obtain ⟨m, hm⟩ := bufOf_concat_form h
  simp [hm]

lemma strTrim_bufOf {g : List Str} (hne : g ≠ []) (hsent : ∀ s ∈ g, Sentence s) :
    strTrim (bufOf g) = (bufOf g).dropLast := by
  cases g with
  | nil => exact absurd rfl hne
  | cons t g' =>
    obtain ⟨c, r, hcr, hcw⟩ := sentence_head (hsent t (by simp))
    obtain ⟨m, hm⟩ := bufOf_concat_form (g := t :: g') (by simp)
    have hhead : bufOf (t :: g') = c :: (r ++ '.' :: ' ' :: bufOf g') := by
      simp [bufOf, hcr]
    have hleft : trimLeft (bufOf (t :: g')) = bufOf (t :: g') := by
      rw [hhead]
      simp [trimLeft, List.dropWhile_cons, hcw]
    have : strTrim (bufOf (t :: g')) = trimRight (bufOf (t :: g')) := by
      unfold strTrim
      rw [hleft]
    rw [this, hm, trimRight_dot_space]
    rw [show m ++ ['.', ' '] = (m ++ ['.']) ++ [' '] by simp]
    rw [List.dropLast_concat]

lemma strTrim_bufOf_ne_nil {g : List Str} (hne : g ≠ []) (hsent : ∀ s ∈ g, Sentence s) :
    strTrim (bufOf g) ≠ [] := by
  obtain ⟨m, hm⟩ := bufOf_concat_form hne
  rw [strTrim_bufOf hne hsent, hm]
  rw [show m ++ ['.', ' '] = (m ++ ['.']) ++ [' '] by simp, List.dropLast_concat]
  simp

lemma strTrim_bufOf_singleton {s : Str} (hs : Sentence s) :
    strTrim (bufOf [s]) = s ++ ['.'] := by
  rw [strTrim_bufOf (by simp) (by simpa using hs)]
  show (s ++ ['.', ' ']).dropLast = s ++ ['.']
  rw [show s ++ ['.', ' '] = (s ++ ['.']) ++ [' '] by simp, List.dropLast_concat]

lemma chunkStep_skip {maxChars : Nat} {st : ChunkSt} {s : Str} (ht : strTrim s = []) :
    chunkStep maxChars st s = st := by
  simp [chunkStep, ht]

lemma chunkStep_flush {maxChars : Nat} {st : ChunkSt} {s : Str} (ht : strTrim s ≠ [])
    (hc : maxChars < st.currentChunk.length + (strTrim s).length + 2)
    (hp : 0 < st.currentChunk.length) :
    chunkStep maxChars st s =
      ⟨st.chunks ++ [strTrim st.currentChunk], strTrim s ++ ['.', ' ']⟩ := by
  simp [chunkStep, ht, hc, hp]

lemma chunkStep_app {maxChars : Nat} {st : ChunkSt} {s : Str} (ht : strTrim s ≠ [])
    (hc : ¬ (maxChars < st.currentChunk.length + (strTrim s).length + 2 ∧
             0 < st.currentChunk.length)) :
    chunkStep maxChars st s = ⟨st.chunks, st.currentChunk ++ strTrim s ++ ['.', ' ']⟩ := by
  simp [chunkStep, ht, hc]

lemma chunk_fold_inv (maxChars : Nat) (l : List Str) :
    ∀ (groups : List (List Str)) (pending : List Str),
      (∀ g ∈ groups, g ≠ []) →
      (∀ g ∈ groups, ∀ s ∈ g, Sentence s) →
      (∀ s ∈ pending, Sentence s) →
      (∀ g ∈ groups, SizeOk maxChars g) →
      PendingOk maxChars pending →
      ∃ (groups' : List (List Str)) (pending' : List Str),
        l.foldl (chunkStep maxChars)
            ⟨groups.map (fun g => strTrim (bufOf g)), bufOf pending⟩ =
          ⟨groups'.map (fun g => strTrim (bufOf g)), bufOf pending'⟩ ∧
        groups'.flatten ++ pending' =
          groups.flatten ++ pending ++ ((l.map strTrim).filter (fun s => !s.isEmpty)) ∧
        (∀ g ∈ groups', g ≠ []) ∧
        (∀ g ∈ groups', ∀ s ∈ g, Sentence s) ∧
        (∀ s ∈ pending', Sentence s) ∧
        (∀ g ∈ groups', SizeOk maxChars g) ∧
        PendingOk maxChars pending' := by
  induction l with
  | nil =>
    intro groups pending h1 h2 h3 h4 h5
    exact ⟨groups, pending, rfl, by simp, h1, h2, h3, h4, h5⟩
  | cons s rest ih =>
    intro groups pending h1 h2 h3 h4 h5
    by_cases ht : strTrim s = []
    · obtain ⟨g', p', heq, hflat, k1, k2, k3, k4, k5⟩ := ih groups pending h1 h2 h3 h4 h5
      refine ⟨g', p', ?_, ?_, k1, k2, k3, k4, k5⟩
      · rw [List.foldl_cons, chunkStep_skip ht]; exact heq
      · rw [hflat]; simp [ht]
    · have hsent : Sentence (strTrim s) := ⟨⟨s, rfl⟩, ht⟩
      by_cases hc : maxChars < (bufOf pending).length + (strTrim s).length + 2 ∧
          0 < (bufOf pending).length
      · -- flush the pending buffer as a completed chunk
        have hpne : pending ≠ [] := by
          intro h; rw [h] at hc; simp [bufOf] at hc
        have h1' : ∀ g ∈ groups ++ [pending], g ≠ [] := by
          intro g hg; rcases List.mem_append.mp hg with h | h
          · exact h1 g h
          · rw [List.mem_singleton.mp h]; exact hpne
        have h2' : ∀ g ∈ groups ++ [pending], ∀ x ∈ g, Sentence x := by
          intro g hg; rcases List.mem_append.mp hg with h | h
          · exact h2 g h
          · rw [List.mem_singleton.mp h]; exact h3
        have h4' : ∀ g ∈ groups ++ [pending], SizeOk maxChars g := by
          intro g hg; rcases List.mem_append.mp hg with h | h
          · exact h4 g h
          · rw [List.mem_singleton.mp h]
            rcases h5 with h5 | h5 | h5
            · exact absurd h5 hpne
            · exact Or.inl (le_trans (strTrim_length_le _) h5)
            · exact Or.inr h5
        obtain ⟨g', p', heq, hflat, k1, k2, k3, k4, k5⟩ :=
          ih (groups ++ [pending]) [strTrim s] h1' h2'
            (by intro x hx; rw [List.mem_singleton.mp hx]; exact hsent) h4'
            (Or.inr (Or.inr ⟨strTrim s, rfl⟩))
        refine ⟨g', p', ?_, ?_, k1, k2, k3, k4, k5⟩
        · rw [List.foldl_cons, chunkStep_flush ht hc.1 hc.2]
          have hst : (⟨groups.map (fun g => strTrim (bufOf g)) ++ [strTrim (bufOf pending)],
              strTrim s ++ ['.', ' ']⟩ : ChunkSt) =
              ⟨(groups ++ [pending]).map (fun g => strTrim (bufOf g)), bufOf [strTrim s]⟩ := by
            simp [bufOf]
          rw [hst]; exact heq
        · rw [hflat]; simp [ht, List.append_assoc]
      · -- append the sentence to the pending buffer
        have h5' : PendingOk maxChars (pending ++ [strTrim s]) := by
          cases pending with
          | nil => exact Or.inr (Or.inr ⟨strTrim s, by simp⟩)
          | cons a p0 =>
            have hpos : 0 < (bufOf (a :: p0)).length := bufOf_pos (by simp)
            have hle : (bufOf (a :: p0)).length + (strTrim s).length + 2 ≤ maxChars := by
              rcases Nat.lt_or_ge maxChars ((bufOf (a :: p0)).length + (strTrim s).length + 2)
                with hlt | hge
              · exact absurd ⟨hlt, hpos⟩ hc
              · exact hge
            refine Or.inr (Or.inl ?_)
            rw [bufOf_append]
            simpa [Nat.add_assoc] using hle
        obtain ⟨g', p', heq, hflat, k1, k2, k3, k4, k5⟩ :=
          ih groups (pending ++ [strTrim s]) h1 h2
            (by intro x hx; rcases List.mem_append.mp hx with h | h
                · exact h3 x h
                · rw [List.mem_singleton.mp h]; exact hsent) h4 h5'
        refine ⟨g', p', ?_, ?_, k1, k2, k3, k4, k5⟩
        · rw [List.foldl_cons, chunkStep_app ht hc]
          have hst : (⟨groups.map (fun g => strTrim (bufOf g)),
              bufOf pending ++ strTrim s ++ ['.', ' ']⟩ : ChunkSt) =
              ⟨groups.map (fun g => strTrim (bufOf g)), bufOf (pending ++ [strTrim s])⟩ := by
            rw [bufOf_append]
          rw [hst]; exact heq
        · rw [hflat]; simp [ht, List.append_assoc]

lemma strTrim_nil : strTrim [] = [] := rfl

lemma chunkText_of_fold {text : Str} {maxChars : Nat} {cs : List Str} {cur : Str}
    (h : (splitSentences text).foldl (chunkStep maxChars) ⟨[], []⟩ = ⟨cs, cur⟩) :
    chunkText text maxChars =
      (if 0 < (if (strTrim cur).isEmpty then cs else cs ++ [strTrim cur]).length
       then (if (strTrim cur).isEmpty then cs else cs ++ [strTrim cur])
       else [text]) := by
  unfold chunkText
  rw [h]

lemma chunkText_spec (text : Str) (maxChars : Nat) :
    (sents text = [] ∧ chunkText text maxChars = [text]) ∨
    ∃ groups : List (List Str), groups ≠ [] ∧
      (∀ g ∈ groups, g ≠ []) ∧ (∀ g ∈ groups, ∀ s ∈ g, Sentence s) ∧
      (∀ g ∈ groups, SizeOk maxChars g) ∧
      groups.flatten = sents text ∧
      chunkText text maxChars = groups.map (fun g => strTrim (bufOf g)) := by
  obtain ⟨g', p', heq, hflat, k1, k2, k3, k4, k5⟩ :=
    chunk_fold_inv maxChars (splitSentences text) [] [] (by simp) (by simp) (by simp)
      (by simp) (Or.inl rfl)
  have heq' : (splitSentences text).foldl (chunkStep maxChars) ⟨[], []⟩ =
      ⟨g'.map (fun g => strTrim (bufOf g)), bufOf p'⟩ := by
    simpa [bufOf] using heq
  have hflat' : g'.flatten ++ p' = sents text := by simpa [sents] using hflat
  cases p' with
  | nil =>
    cases hg : g' with
    | nil =>
      left
      have hsents : sents text = [] := by
        rw [hg] at hflat'; simpa using hflat'.symm
      refine ⟨hsents, ?_⟩
      rw [hg] at heq'
      rw [chunkText_of_fold (by simpa [bufOf] using heq')]
      simp [strTrim_nil]
    | cons g0 gs =>
      right
      refine ⟨g', by simp [hg], k1, k2, k4, by simpa using hflat', ?_⟩
      rw [chunkText_of_fold heq']
      simp [bufOf, strTrim_nil, hg]
  | cons t p0 =>
    right
    have hTrimNe : strTrim (bufOf (t :: p0)) ≠ [] := strTrim_bufOf_ne_nil (by simp) k3
    have hSize : SizeOk maxChars (t :: p0) := by
      rcases k5 with h | h | h
      · exact absurd h (by simp)
      · exact Or.inl (le_trans (strTrim_length_le _) h)
      · exact Or.inr h
    refine ⟨g' ++ [t :: p0], by simp, ?_, ?_, ?_, ?_, ?_⟩
    · intro g hgm; rcases List.mem_append.mp hgm with h | h
      · exact k1 g h
      · rw [List.mem_singleton.mp h]; simp
    · intro g hgm; rcases List.mem_append.mp hgm with h | h
      · exact k2 g h
      · rw [List.mem_singleton.mp h]; exact k3
    · intro g hgm; rcases List.mem_append.mp hgm with h | h
      · exact k4 g h
      · rw [List.mem_singleton.mp h]; exact hSize
    · rw [List.flatten_append]; simpa using hflat'
    · rw [chunkText_of_fold heq']
      simp [hTrimNe]

/-! ### Consolidator lemmas -/

lemma resolveId_nil (i : String) : resolveId [] i = i := rfl

lemma resolveRel_nil (r : GraphRelationship) : resolveRel [] r = r := rfl

lemma nodeStep_mono {m : List (String × String)} {acc : List GraphNode} {node a : GraphNode}
    (h : a ∈ acc) : a ∈ nodeStep m acc node := by
  by_cases hex : ∃ n ∈ acc, n.id = resolveId m node.id
  · simpa [nodeStep, hex] using h
  · simp only [nodeStep, hex, if_false]
    exact List.mem_append.mpr (Or.inl h)

lemma nodePass_go_mono (m : List (String × String)) :
    ∀ (ns : List GraphNode) (acc : List GraphNode) (a : GraphNode),
      a ∈ acc → a ∈ ns.foldl (nodeStep m) acc := by
  intro ns
  induction ns with
  | nil => intro acc a h; exact h
  | cons node rest ih => intro acc a h; exact ih _ _ (nodeStep_mono h)

lemma nodePass_go_covers (m : List (String × String)) :
    ∀ (ns : List GraphNode) (acc : List GraphNode) (node : GraphNode), node ∈ ns →
      ∃ nd ∈ ns.foldl (nodeStep m) acc, nd.id = resolveId m node.id := by
  intro ns
  induction ns with
  | nil => intro acc node h; exact absurd h (List.not_mem_nil node)
  | cons hd rest ih =>
    intro acc node h
    rcases List.mem_cons.mp h with rfl | h
    · by_cases hex : ∃ n ∈ acc, n.id = resolveId m node.id
      · obtain ⟨n, hn, hid⟩ := hex
        exact ⟨n, nodePass_go_mono m rest _ n (nodeStep_mono hn), hid⟩
      · refine ⟨{ node with id := resolveId m node.id }, ?_, rfl⟩
        apply nodePass_go_mono m rest
        unfold nodeStep
        rw [if_neg hex]
        exact List.mem_append.mpr (Or.inr (by simp))
    · exact ih _ node h

lemma nodePass_go_nodup (m : List (String × String)) :
    ∀ (ns : List GraphNode) (acc : List GraphNode),
      (acc.map GraphNode.id).Nodup → ((ns.foldl (nodeStep m) acc).map GraphNode.id).Nodup := by
  intro ns
  induction ns with
  | nil => intro acc h; exact h
  | cons node rest ih =>
    intro acc h
    apply ih
    by_cases hex : ∃ n ∈ acc, n.id = resolveId m node.id
    · simpa [nodeStep, hex] using h
    · simp only [nodeStep, hex, if_false]
      rw [List.map_append]
      simp only [List.map_cons, List.map_nil]
      rw [List.nodup_append]
      refine ⟨h, List.nodup_singleton _, ?_⟩
      intro x hx hx'
      simp only [List.mem_singleton] at hx'
      obtain ⟨n, hn, hid⟩ := List.mem_map.mp hx
      exact hex ⟨n, hn, by rw [hid, hx']⟩


lemma nodePass_nil_of_nodup :
    ∀ (ns : List GraphNode) (acc : List GraphNode),
      (((acc ++ ns).map GraphNode.id)).Nodup → ns.foldl (nodeStep []) acc = acc ++ ns := by
  intro ns
  induction ns with
  | nil => intro acc _; simp
  | cons node rest ih =>
    intro acc h
    have hnotin : ¬ ∃ n ∈ acc, n.id = resolveId [] node.id := by
      rw [resolveId_nil]
      rintro ⟨n, hn, hid⟩
      rw [List.map_append] at h
      rcases List.nodup_append.mp h with ⟨_, _, hdisj⟩
      exact hdisj (List.mem_map.mpr ⟨n, hn, rfl⟩)
        (by simp only [List.map_cons]; exact List.mem_cons.mpr (Or.inl hid))
    have hstep : nodeStep [] acc node = acc ++ [node] := by
      unfold nodeStep
      rw [if_neg hnotin]
      rfl
    rw [List.foldl_cons, hstep, ih (acc ++ [node]) (by simpa using h)]
    simp

@[simp] lemma resolveRel_source (m : List (String × String)) (r : GraphRelationship) :
    (resolveRel m r).source = resolveId m r.source := rfl

@[simp] lemma resolveRel_target (m : List (String × String)) (r : GraphRelationship) :
    (resolveRel m r).target = resolveId m r.target := rfl

@[simp] lemma resolveRel_type (m : List (String × String)) (r : GraphRelationship) :
    (resolveRel m r).type = r.type := rfl

lemma survivingRels_cons (m : List (String × String)) (nodes : List GraphNode)
    (rel : GraphRelationship) (rs : List GraphRelationship) :
    survivingRels m nodes (rel :: rs) =
      if resolveId m rel.source ≠ resolveId m rel.target ∧
         (∃ n ∈ nodes, n.id = resolveId m rel.source) ∧
         (∃ n ∈ nodes, n.id = resolveId m rel.target)
      then resolveRel m rel :: survivingRels m nodes rs
      else survivingRels m nodes rs := by
  by_cases h : resolveId m rel.source ≠ resolveId m rel.target ∧
      (∃ n ∈ nodes, n.id = resolveId m rel.source) ∧
      (∃ n ∈ nodes, n.id = resolveId m rel.target)
  · rw [if_pos h]
    unfold survivingRels
    rw [List.map_cons, List.filter_cons, if_pos (by simpa using h)]
  · rw [if_neg h]
    unfold survivingRels
    rw [List.map_cons, List.filter_cons, if_neg (by simpa using h)]

lemma relPass_go_eq (m : List (String × String)) (nodes : List GraphNode) :
    ∀ (rs acc : List GraphRelationship),
      rs.foldl (relStep m nodes) acc = (survivingRels m nodes rs).foldl dedupStep acc := by
  intro rs
  induction rs with
  | nil => intro acc; simp [survivingRels]
  | cons rel rest ih =>
    intro acc
    rw [List.foldl_cons, survivingRels_cons]
    by_cases hself : resolveId m rel.source = resolveId m rel.target
    · rw [if_neg (by simp [hself])]
      have hstep : relStep m nodes acc rel = acc := by
        simp only [relStep]
        rw [if_pos hself]
      rw [hstep]; exact ih _
    · by_cases hdang : (∃ n ∈ nodes, n.id = resolveId m rel.source) ∧
          (∃ n ∈ nodes, n.id = resolveId m rel.target)
      · rw [if_pos ⟨hself, hdang⟩, List.foldl_cons]
        have hstep : relStep m nodes acc rel = dedupStep acc (resolveRel m rel) := by
          simp only [relStep, dedupStep]
          rw [if_neg hself, if_neg (by push_neg; exact ⟨hdang.1, hdang.2⟩)]
          rfl
        rw [hstep]; exact ih _
      · rw [if_neg (by intro hcon; exact hdang ⟨hcon.2.1, hcon.2.2⟩)]
        have hdang' : ¬ (∃ n ∈ nodes, n.id = resolveId m rel.source) ∨
            ¬ (∃ n ∈ nodes, n.id = resolveId m rel.target) := by
          by_contra hcon
          push_neg at hcon
          exact hdang ⟨hcon.1, hcon.2⟩
        have hstep : relStep m nodes acc rel = acc := by
          simp only [relStep]
          rw [if_neg hself, if_pos hdang']
        rw [hstep]; exact ih _

lemma relPass_eq_dedup (m : List (String × String)) (nodes : List GraphNode)
    (rs : List GraphRelationship) :
    relPass m nodes rs = dedupByKeyFirst (survivingRels m nodes rs) := by
  unfold relPass dedupByKeyFirst
  exact relPass_go_eq m nodes rs []

lemma dedup_fold_mem :
    ∀ (l acc : List GraphRelationship) (x : GraphRelationship),
      x ∈ l.foldl dedupStep acc → x ∈ acc ∨ x ∈ l := by
  intro l
  induction l with
  | nil => intro acc x h; exact Or.inl h
  | cons r rest ih =>
    intro acc x h
    rcases ih _ x h with h' | h'
    · unfold dedupStep at h'
      by_cases hex : ∃ p ∈ acc, keyOf p = keyOf r
      · rw [if_pos hex] at h'; exact Or.inl h'
      · rw [if_neg hex] at h'
        rcases List.mem_append.mp h' with h'' | h''
        · exact Or.inl h''
        · exact Or.inr (List.mem_cons.mpr (Or.inl (List.mem_singleton.mp h'')))
    · exact Or.inr (List.mem_cons.mpr (Or.inr h'))

lemma dedup_fold_keys_nodup :
    ∀ (l acc : List GraphRelationship),
      (acc.map keyOf).Nodup → ((l.foldl dedupStep acc).map keyOf).Nodup := by
  intro l
  induction l with
  | nil => intro acc h; exact h
  | cons r rest ih =>
    intro acc h
    apply ih
    unfold dedupStep
    by_cases hex : ∃ p ∈ acc, keyOf p = keyOf r
    · rw [if_pos hex]; exact h
    · rw [if_neg hex, List.map_append]
      simp only [List.map_cons, List.map_nil]
      rw [List.nodup_append]
      refine ⟨h, List.nodup_singleton _, ?_⟩
      intro x hx hx'
      simp only [List.mem_singleton] at hx'
      obtain ⟨p, hp, hkp⟩ := List.mem_map.mp hx
      exact hex ⟨p, hp, by rw [hkp, hx']⟩

lemma dedup_fold_id_of_nodup :
    ∀ (l acc : List GraphRelationship),
      ((acc ++ l).map keyOf).Nodup → l.foldl dedupStep acc = acc ++ l := by
  intro l
  induction l with
  | nil => intro acc _; simp
  | cons r rest ih =>
    intro acc h
    have hnotin : ¬ ∃ p ∈ acc, keyOf p = keyOf r := by
      rintro ⟨p, hp, hk⟩
      rw [List.map_append] at h
      rcases List.nodup_append.mp h with ⟨_, _, hdisj⟩
      exact hdisj (List.mem_map.mpr ⟨p, hp, rfl⟩)
        (by simp only [List.map_cons]; exact List.mem_cons.mpr (Or.inl hk))
    rw [List.foldl_cons, show dedupStep acc r = acc ++ [r] by
      unfold dedupStep; rw [if_neg hnotin]]
    rw [ih (acc ++ [r]) (by simpa using h)]
    simp

@[simp] lemma consolidateGraph_nodes (ns : List GraphNode) (rs : List GraphRelationship)
    (m : List (String × String)) : (consolidateGraph ns rs m).nodes = nodePass m ns := rfl

@[simp] lemma consolidateGraph_rels (ns : List GraphNode) (rs : List GraphRelationship)
    (m : List (String × String)) :
    (consolidateGraph ns rs m).relationships = relPass m (nodePass m ns) rs := rfl

lemma survivingRels_guard {m : List (String × String)} {nodes : List GraphNode}
    {rs : List GraphRelationship} {r : GraphRelationship} (h : r ∈ survivingRels m nodes rs) :
    r.source ≠ r.target ∧ (∃ n ∈ nodes, n.id = r.source) ∧ ∃ n ∈ nodes, n.id = r.target := by
  unfold survivingRels at h
  exact of_decide_eq_true (List.mem_filter.mp h).2

lemma keys_nodup_pairwise_triple {l : List GraphRelationship} (h : (l.map keyOf).Nodup) :
    l.Pairwise (fun a b => ¬ (a.source = b.source ∧ a.type = b.type ∧ a.target = b.target)) := by
  have hp : l.Pairwise (fun a b => keyOf a ≠ keyOf b) := List.pairwise_map.mp h
  exact hp.imp (fun hk ht => hk (by unfold keyOf relKey; rw [ht.1, ht.2.1, ht.2.2]))

lemma nodePass_nodup (m : List (String × String)) (ns : List GraphNode) :
    ((nodePass m ns).map GraphNode.id).Nodup :=
  nodePass_go_nodup m ns [] (by simp)

lemma relPass_wf (m : List (String × String)) (nodes : List GraphNode)
    (rs : List GraphRelationship) :
    ∀ r ∈ relPass m nodes rs,
      r.source ≠ r.target ∧ (∃ n ∈ nodes, n.id = r.source) ∧ ∃ n ∈ nodes, n.id = r.target := by
  intro r hr
  rw [relPass_eq_dedup] at hr
  unfold dedupByKeyFirst at hr
  rcases dedup_fold_mem _ [] r hr with h | h
  · exact absurd h (List.not_mem_nil r)
  · exact survivingRels_guard h

lemma relPass_keys_nodup (m : List (String × String)) (nodes : List GraphNode)
    (rs : List GraphRelationship) : ((relPass m nodes rs).map keyOf).Nodup := by
  rw [relPass_eq_dedup]
  exact dedup_fold_keys_nodup _ [] (by simp)

lemma survivingRels_nil_id {nodes : List GraphNode} {rs : List GraphRelationship}
    (h : ∀ r ∈ rs, r.source ≠ r.target ∧ (∃ n ∈ nodes, n.id = r.source) ∧
         ∃ n ∈ nodes, n.id = r.target) :
    survivingRels [] nodes rs = rs := by
  unfold survivingRels
  have hmap : rs.map (resolveRel []) = rs := by
    rw [List.map_congr_left (fun r _ => resolveRel_nil r)]
    simp
  rw [hmap]
  exact List.filter_eq_self.mpr (fun r hr => decide_eq_true (h r hr))

lemma relPass_nil_id {nodes : List GraphNode} {rs : List GraphRelationship}
    (hwf : ∀ r ∈ rs, r.source ≠ r.target ∧ (∃ n ∈ nodes, n.id = r.source) ∧
           ∃ n ∈ nodes, n.id = r.target)
    (hkeys : (rs.map keyOf).Nodup) :
    relPass [] nodes rs = rs := by
  rw [relPass_eq_dedup, survivingRels_nil_id hwf]
  unfold dedupByKeyFirst
  exact dedup_fold_id_of_nodup rs [] (by simpa using hkeys)

/-! ### Orchestrator lemmas -/

@[simp] lemma processChunk_events (o : OracleResponse) (c : Str) (aE aR : List String)
    (d : String) (T : Nat) (st : OrchState) :
    (processChunk o c aE aR d T st).events =
      st.events ++ [(st.processedChunks : ℚ) / (T : ℚ) * 70] := rfl

@[simp] lemma processChunk_pc (o : OracleResponse) (c : Str) (aE aR : List String)
    (d : String) (T : Nat) (st : OrchState) :
    (processChunk o c aE aR d T st).processedChunks = st.processedChunks + 1 := rfl

@[simp] lemma processChunk_allNodes (o : OracleResponse) (c : Str) (aE aR : List String)
    (d : String) (T : Nat) (st : OrchState) :
    (processChunk o c aE aR d T st).allNodes =
      st.allNodes ++ (extractFromChunk c aE aR o).nodes := rfl

lemma divmul_nonneg (a T : ℕ) {c : ℚ} (hc : 0 ≤ c) : 0 ≤ (a : ℚ) / (T : ℚ) * c := by
  positivity

lemma divmul_mono {a b : ℕ} (T : ℕ) {c : ℚ} (hc : 0 ≤ c) (h : a ≤ b) :
    (a : ℚ) / (T : ℚ) * c ≤ (b : ℚ) / (T : ℚ) * c := by
  rcases Nat.eq_zero_or_pos T with rfl | hT
  · simp
  · have hT' : (0 : ℚ) < (T : ℚ) := by exact_mod_cast hT
    have hab : (a : ℚ) ≤ (b : ℚ) := by exact_mod_cast h
    exact mul_le_mul_of_nonneg_right ((div_le_div_iff_of_pos_right hT').mpr hab) hc

lemma divmul_le {a T : ℕ} {c : ℚ} (hc : 0 ≤ c) (h : a ≤ T) :
    (a : ℚ) / (T : ℚ) * c ≤ c := by
  rcases Nat.eq_zero_or_pos T with rfl | hT
  · simp [hc]
  · have hT' : (0 : ℚ) < (T : ℚ) := by exact_mod_cast hT
    have h1 : (a : ℚ) / (T : ℚ) ≤ 1 := by
      rw [div_le_one hT']
      exact_mod_cast h
    calc (a : ℚ) / (T : ℚ) * c ≤ 1 * c := by
          exact mul_le_mul_of_nonneg_right h1 hc
      _ = c := one_mul c

lemma evOk_snoc {l : List ℚ} {lv a : ℚ} (h : evOk l lv) (hle : lv ≤ a) (h0 : 0 ≤ a)
    (h100 : a ≤ 100) : evOk (l ++ [a]) a := by
  obtain ⟨hch, hbd, hlast⟩ := h
  refine ⟨?_, ?_, List.getLast?_concat _⟩
  · rw [List.chain'_append]
    refine ⟨hch, List.chain'_singleton a, ?_⟩
    intro x hx y hy
    rw [hlast] at hx
    simp only [Option.mem_some_iff] at hx
    simp only [List.head?_cons, Option.mem_some_iff] at hy
    subst hx; subst hy
    exact hle
  · intro e he
    rcases List.mem_append.mp he with h | h
    · exact hbd e h
    · rw [List.mem_singleton.mp h]; exact ⟨h0, h100⟩

lemma evOk_append {l₁ l₂ : List ℚ} {lv₁ lv₂ hd : ℚ} (h1 : evOk l₁ lv₁)
    (hch2 : l₂.Chain' (· ≤ ·)) (hbd2 : ∀ e ∈ l₂, 0 ≤ e ∧ e ≤ 100)
    (hlast2 : l₂.getLast? = some lv₂) (hhead : l₂.head? = some hd) (hle : lv₁ ≤ hd) :
    evOk (l₁ ++ l₂) lv₂ := by
  obtain ⟨hch, hbd, hlast⟩ := h1
  have h2ne : l₂ ≠ [] := by
    intro h; rw [h] at hlast2; exact Option.noConfusion hlast2
  refine ⟨?_, ?_, ?_⟩
  · rw [List.chain'_append]
    refine ⟨hch, hch2, ?_⟩
    intro x hx y hy
    rw [hlast] at hx
    rw [hhead] at hy
    simp only [Option.mem_some_iff] at hx hy
    subst hx; subst hy
    exact hle
  · intro e he
    rcases List.mem_append.mp he with h | h
    · exact hbd e h
    · exact hbd2 e h
  · rw [List.getLast?_append_of_ne_nil l₁ h2ne]
    exact hlast2

lemma chunkLoop_inv (outs : Nat → OracleResponse) (aE aR : List String) (docId : String)
    (T : Nat) :
    ∀ (l : List (Nat × Str)) (st : OrchState) (lv : ℚ),
      evOk st.events lv → lv ≤ (st.processedChunks : ℚ) / (T : ℚ) * 70 →
      st.processedChunks + l.length ≤ T →
      (l.foldl (fun s p => processChunk (outs p.1) p.2 aE aR docId T s) st).processedChunks
          = st.processedChunks + l.length ∧
      ∃ lv', evOk
          (l.foldl (fun s p => processChunk (outs p.1) p.2 aE aR docId T s) st).events lv' ∧
        lv' ≤ ((l.foldl (fun s p => processChunk (outs p.1) p.2 aE aR docId T s)
                  st).processedChunks : ℚ) / (T : ℚ) * 70 := by
  intro l
  induction l with
  | nil =>
    intro st lv h1 h2 _
    exact ⟨by simp, lv, h1, h2⟩
  | cons p rest ih =>
    intro st lv h1 h2 h3
    have hpcT : st.processedChunks + 1 ≤ T := by
      simp only [List.length_cons] at h3
      omega
    have hev : evOk (st.events ++ [(st.processedChunks : ℚ) / (T : ℚ) * 70])
        ((st.processedChunks : ℚ) / (T : ℚ) * 70) :=
      evOk_snoc h1 h2 (divmul_nonneg _ _ (by norm_num))
        (le_trans (divmul_le (by norm_num) (by omega)) (by norm_num))
    have hnext : ((st.processedChunks : ℚ) / (T : ℚ) * 70) ≤
        ((st.processedChunks + 1 : ℕ) : ℚ) / (T : ℚ) * 70 :=
      divmul_mono T (by norm_num) (Nat.le_succ _)
    have := ih (processChunk (outs p.1) p.2 aE aR docId T st)
      ((st.processedChunks : ℚ) / (T : ℚ) * 70)
      (by simpa using hev) (by simpa using hnext)
      (by simp only [processChunk_pc]; simp only [List.length_cons] at h3; omega)
    rw [List.foldl_cons]
    refine ⟨?_, this.2⟩
    rw [this.1]
    simp only [processChunk_pc, List.length_cons]
    omega

lemma processDoc_eq (outs : Nat → OracleResponse) (aE aR : List String) (docId : String)
    (T : Nat) (chunks : List Str) (st : OrchState) :
    processDoc outs aE aR docId T chunks st =
      chunks.enum.foldl (fun s q => processChunk (outs q.1) q.2 aE aR docId T s)
        { st with events := st.events ++ [(st.processedChunks : ℚ) / (T : ℚ) * 70] } := rfl

set_option maxHeartbeats 1000000 in
lemma docLoop_inv (extractO : Nat → Nat → OracleResponse) (aE aR : List String)
    (names : Option (List String)) (T : Nat) :
    ∀ (l : List (Nat × List Str)) (st : OrchState) (lv : ℚ),
      evOk st.events lv → lv ≤ (st.processedChunks : ℚ) / (T : ℚ) * 70 →
      st.processedChunks + (l.map (fun p => p.2.length)).sum ≤ T →
      (l.foldl (fun s p => processDoc (extractO p.1) aE aR (documentName names p.1) T p.2 s)
          st).processedChunks = st.processedChunks + (l.map (fun p => p.2.length)).sum ∧
      ∃ lv', evOk
          (l.foldl (fun s p => processDoc (extractO p.1) aE aR (documentName names p.1) T p.2 s)
            st).events lv' ∧
        lv' ≤ ((l.foldl (fun s p =>
                processDoc (extractO p.1) aE aR (documentName names p.1) T p.2 s)
                  st).processedChunks : ℚ) / (T : ℚ) * 70 := by
  intro l
  induction l with
  | nil =>
    intro st lv h1 h2 _
    exact ⟨by simp, lv, h1, h2⟩
  | cons p rest ih =>
    intro st lv h1 h2 h3
    have h3' : st.processedChunks + (p.2.length + (rest.map (fun q => q.2.length)).sum) ≤ T := by
      simpa using h3
    have hev : evOk (st.events ++ [(st.processedChunks : ℚ) / (T : ℚ) * 70])
        ((st.processedChunks : ℚ) / (T : ℚ) * 70) :=
      evOk_snoc h1 h2 (divmul_nonneg _ _ (by norm_num))
        (le_trans (divmul_le (by norm_num) (by omega)) (by norm_num))
    obtain ⟨hpc, lv', hev', hle'⟩ := chunkLoop_inv (extractO p.1) aE aR
      (documentName names p.1) T p.2.enum
      { st with events := st.events ++ [(st.processedChunks : ℚ) / (T : ℚ) * 70] }
      ((st.processedChunks : ℚ) / (T : ℚ) * 70)
      hev (le_refl _)
      (by show st.processedChunks + p.2.enum.length ≤ T
          rw [List.enum_length]; omega)
    rw [List.foldl_cons, processDoc_eq]
    set F : OrchState := p.2.enum.foldl (fun s q =>
        processChunk (extractO p.1 q.1) q.2 aE aR (documentName names p.1) T s)
        { st with events := st.events ++ [(st.processedChunks : ℚ) / (T : ℚ) * 70] } with hF
    have hpcF : F.processedChunks = st.processedChunks + p.2.length := by
      rw [hpc, List.enum_length]
    obtain ⟨ihpc, ihlv⟩ := ih F lv' hev' hle' (by rw [hpcF]; omega)
    refine ⟨?_, ihlv⟩
    rw [ihpc, hpcF]
    simp only [List.map_cons, List.sum_cons]
    omega

lemma mergeStep_events (mergeO : Nat → Option (List MergedEntity)) (ets : List String)
    (ebt : List (String × List String)) (st : List (String × String) × List ℚ) (k : Nat) :
    (mergeStep mergeO ets ebt st k).2 = st.2 ++ [(k : ℚ) / (ets.length : ℚ) * 100] := by
  simp only [mergeStep]
  split
  · rfl
  · split <;> rfl

lemma mergeLoop_events (mergeO : Nat → Option (List MergedEntity)) (ets : List String)
    (ebt : List (String × List String)) :
    ∀ (l : List Nat) (st : List (String × String) × List ℚ),
      (l.foldl (mergeStep mergeO ets ebt) st).2 =
        st.2 ++ l.map (fun k : ℕ => (k : ℚ) / (ets.length : ℚ) * 100) := by
  intro l
  induction l with
  | nil => intro st; simp
  | cons k rest ih =>
    intro st
    rw [List.foldl_cons, ih, mergeStep_events]
    simp

lemma mergeEvents_nil {mergeO : Nat → Option (List MergedEntity)} {nodes : List GraphNode}
    (h : nodes.length ≤ 1) : (mergeEntitiesWithLLM mergeO nodes).2 = [] := by
  unfold mergeEntitiesWithLLM
  rw [if_pos h]

lemma mergeEvents_spec {mergeO : Nat → Option (List MergedEntity)} {nodes : List GraphNode}
    (h : ¬ nodes.length ≤ 1) :
    (mergeEntitiesWithLLM mergeO nodes).2 =
      (0 : ℚ) :: ((List.range ((entitiesByType nodes).map Prod.fst).length).map
        (fun k : ℕ => (k : ℚ) / (((entitiesByType nodes).map Prod.fst).length : ℚ) * 100)
        ++ [100]) := by
  unfold mergeEntitiesWithLLM
  rw [if_neg h]
  simp only
  rw [mergeLoop_events]
  simp

lemma mergeEvents_ok (mergeO : Nat → Option (List MergedEntity)) (nodes : List GraphNode)
    (h : ¬ nodes.length ≤ 1) :
    (mergeEntitiesWithLLM mergeO nodes).2.Chain' (· ≤ ·) ∧
    (∀ e ∈ (mergeEntitiesWithLLM mergeO nodes).2, 0 ≤ e ∧ e ≤ 100) ∧
    (mergeEntitiesWithLLM mergeO nodes).2.head? = some 0 ∧
    (mergeEntitiesWithLLM mergeO nodes).2.getLast? = some 100 := by
  rw [mergeEvents_spec h]
  set N := ((entitiesByType nodes).map Prod.fst).length with hN
  have hbdmap : ∀ e ∈ (List.range N).map (fun k : ℕ => (k : ℚ) / (N : ℚ) * 100),
      0 ≤ e ∧ e ≤ 100 := by
    intro e he
    obtain ⟨k, hk, rfl⟩ := List.mem_map.mp he
    have hkN : k ≤ N := le_of_lt (List.mem_range.mp hk)
    exact ⟨divmul_nonneg _ _ (by norm_num),
      le_trans (divmul_le (by norm_num) hkN) (by norm_num)⟩
  have hpw : ((0 : ℚ) :: ((List.range N).map (fun k : ℕ => (k : ℚ) / (N : ℚ) * 100)
      ++ [100])).Pairwise (· ≤ ·) := by
    rw [List.pairwise_cons]
    constructor
    · intro a ha
      rcases List.mem_append.mp ha with h' | h'
      · exact (hbdmap a h').1
      · rw [List.mem_singleton.mp h']; norm_num
    · rw [List.pairwise_append]
      refine ⟨?_, List.pairwise_singleton _ _, ?_⟩
      · rw [List.pairwise_map]
        exact (List.pairwise_lt_range N).imp
          (fun hab => divmul_mono N (by norm_num) (le_of_lt hab))
      · intro a ha b hb
        rw [List.mem_singleton.mp hb]
        exact (hbdmap a ha).2
  refine ⟨hpw.chain', ?_, rfl, ?_⟩
  · intro e he
    rcases List.mem_cons.mp he with rfl | he'
    · norm_num
    · rcases List.mem_append.mp he' with h' | h'
      · exact hbdmap e h'
      · rw [List.mem_singleton.mp h']; norm_num
  · rw [List.getLast?_cons, List.getLast?_append_of_ne_nil _ (by simp)]
    simp

lemma evOk_singleton {a : ℚ} (h0 : 0 ≤ a) (h100 : a ≤ 100) : evOk [a] a :=
  ⟨List.chain'_singleton a,
   by intro e he; rw [List.mem_singleton.mp he]; exact ⟨h0, h100⟩, rfl⟩

lemma chunkLoop_nodes (outs : Nat → OracleResponse) (aE aR : List String) (docId : String)
    (T : Nat) :
    ∀ (l : List (Nat × Str)) (st : OrchState),
      (∀ p ∈ l, (extractFromChunk p.2 aE aR (outs p.1)).nodes = []) →
      (l.foldl (fun s p => processChunk (outs p.1) p.2 aE aR docId T s) st).allNodes
        = st.allNodes := by
  intro l
  induction l with
  | nil => intro st _; rfl
  | cons p rest ih =>
    intro st h
    rw [List.foldl_cons, ih _ (fun q hq => h q (List.mem_cons.mpr (Or.inr hq)))]
    simp [h p (List.mem_cons.mpr (Or.inl rfl))]

lemma docLoop_nodes (extractO : Nat → Nat → OracleResponse) (aE aR : List String)
    (names : Option (List String)) (T : Nat) :
    ∀ (l : List (Nat × List Str)) (st : OrchState),
      (∀ p ∈ l, ∀ q ∈ p.2.enum, (extractFromChunk q.2 aE aR (extractO p.1 q.1)).nodes = []) →
      (l.foldl (fun s p => processDoc (extractO p.1) aE aR (documentName names p.1) T p.2 s)
          st).allNodes = st.allNodes := by
  intro l
  induction l with
  | nil => intro st _; rfl
  | cons p rest ih =>
    intro st h
    rw [List.foldl_cons, ih _ (fun q hq => h q (List.mem_cons.mpr (Or.inr hq))),
      processDoc_eq, chunkLoop_nodes _ _ _ _ _ _ _
        (fun q hq => h p (List.mem_cons.mpr (Or.inl rfl)) q hq)]

lemma orchSt1_nodes (extractO : Nat → Nat → OracleResponse) (texts : List Str)
    (aE aR : List String) (names : Option (List String))
    (h : ∀ c ∈ chunkCalls extractO texts, (extractFromChunk c.1 aE aR c.2).nodes = []) :
    (orchSt1 extractO texts aE aR names).allNodes = mkDocumentNodes texts names := by
  unfold orchSt1
  rw [docLoop_nodes]
  intro p hp q hq
  exact h (q.2, extractO p.1 q.1)
    (List.mem_flatMap.mpr ⟨p, hp, List.mem_map.mpr ⟨q, hq, rfl⟩⟩)

lemma processDocumentsToGraph_short (extractO : Nat → Nat → OracleResponse)
    (mergeO : Nat → Option (List MergedEntity)) (texts : List Str) (aE aR : List String)
    (names : Option (List String))
    (h : (orchSt1 extractO texts aE aR names).allNodes.length ≤
         (mkDocumentNodes texts names).length) :
    processDocumentsToGraph extractO mergeO texts aE aR names =
      ⟨⟨mkDocumentNodes texts names, []⟩,
        (orchSt1 extractO texts aE aR names).events ++ [(70 : ℚ)] ++ [100], false⟩ := by
  unfold processDocumentsToGraph
  rw [if_pos h]

lemma processDocumentsToGraph_merge (extractO : Nat → Nat → OracleResponse)
    (mergeO : Nat → Option (List MergedEntity)) (texts : List Str) (aE aR : List String)
    (names : Option (List String))
    (h : ¬ (orchSt1 extractO texts aE aR names).allNodes.length ≤
         (mkDocumentNodes texts names).length) :
    processDocumentsToGraph extractO mergeO texts aE aR names =
      ⟨consolidateGraph (orchSt1 extractO texts aE aR names).allNodes
          (orchSt1 extractO texts aE aR names).allRelationships
          (mergeEntitiesWithLLM mergeO
            ((orchSt1 extractO texts aE aR names).allNodes.filter
              (fun nd => nd.type != "DOCUMENT"))).1,
        (orchSt1 extractO texts aE aR names).events ++ [(70 : ℚ)] ++ [75] ++
          ((mergeEntitiesWithLLM mergeO
            ((orchSt1 extractO texts aE aR names).allNodes.filter
              (fun nd => nd.type != "DOCUMENT"))).2.map
                (fun p => 75 + p * (15 / 100 : ℚ))) ++ [90, 100],
        true⟩ := by
  unfold processDocumentsToGraph
  rw [if_neg h]

lemma orchSt1_evOk (extractO : Nat → Nat → OracleResponse) (texts : List Str)
    (aE aR : List String) (names : Option (List String)) :
    ∃ lv, evOk (orchSt1 extractO texts aE aR names).events lv ∧ lv ≤ 70 := by
  have hsum : (((texts.map (fun t => chunkText t 8000)).enum).map
      (fun p => p.2.length)).sum = orchTotalChunks texts := by
    have h1 : ((texts.map (fun t => chunkText t 8000)).enum).map
        (fun p : Nat × List Str => p.2.length) =
        ((texts.map (fun t => chunkText t 8000)).enum.map Prod.snd).map List.length := by
      rw [List.map_map]
      rfl
    rw [h1, List.enum_map_snd]
    rfl
  obtain ⟨hpc, lv, hev, hle⟩ := docLoop_inv extractO aE aR names (orchTotalChunks texts)
    ((texts.map (fun t => chunkText t 8000)).enum)
    ⟨mkDocumentNodes texts names, [], [(0 : ℚ)], 0⟩ 0
    (evOk_singleton (by norm_num) (by norm_num))
    (by simp)
    (by simp [hsum])
  refine ⟨lv, hev, ?_⟩
  have hpcT : ((texts.map (fun t => chunkText t 8000)).enum.foldl (fun s p =>
      processDoc (extractO p.1) aE aR (documentName names p.1) (orchTotalChunks texts) p.2 s)
      ⟨mkDocumentNodes texts names, [], [(0 : ℚ)], 0⟩ : OrchState).processedChunks =
      orchTotalChunks texts := by
    rw [hpc, hsum]
    simp
  rw [hpcT] at hle
  exact le_trans hle (divmul_le (by norm_num) (le_refl _))

/-! ### Claim theorems -/

/-- C3 counterexample: the text `"!!!!!"` with `maxChars = 3` has no non-empty
sentence, so `chunkText` falls back to returning the whole five-character text
as a single chunk.  That chunk exceeds `maxChars` yet is not a single sentence
exceeding `maxChars` — the claim as stated is false. -/
theorem chunkText_bound_cex : ¬ chunkBoundClaim ['!', '!', '!', '!', '!'] 3 := by
  unfold chunkBoundClaim
  decide

/-- C3 (amended): every chunk produced by `chunkText` has length at most
`maxChars`, except (a) a chunk consisting of a single sentence (with its
restored terminal period) whose length exceeds `maxChars`, and (b) the
original text returned whole when it contains no non-empty sentence (the
fallback of graph-processor.ts:58), whose length is unbounded. -/
theorem chunkText_bound (text : Str) (maxChars : Nat) :
    ∀ c ∈ chunkText text maxChars,
      c.length ≤ maxChars ∨
      (∃ s ∈ sents text, c = s ++ ['.'] ∧ maxChars < c.length) ∨
      (sents text = [] ∧ c = text) := by
  intro c hc
  rcases chunkText_spec text maxChars with ⟨hs, heq⟩ |
    ⟨groups, _, hne, hsent, hsize, hflat, heq⟩
  · rw [heq] at hc
    exact Or.inr (Or.inr ⟨hs, List.mem_singleton.mp hc⟩)
  · rw [heq] at hc
    obtain ⟨g, hg, rfl⟩ := List.mem_map.mp hc
    rcases hsize g hg with h | ⟨s, rfl⟩
    · exact Or.inl h
    · by_cases hlen : (strTrim (bufOf [s])).length ≤ maxChars
      · exact Or.inl hlen
      · refine Or.inr (Or.inl ⟨s, ?_, strTrim_bufOf_singleton (hsent [s] hg s (by simp)),
          by omega⟩)
        rw [← hflat]
        exact List.mem_flatten.mpr ⟨[s], hg, by simp⟩

/-- C3 witness: on the text `"Hi. Yo."` with `maxChars = 100` the single
produced chunk satisfies the amended bound. -/
theorem chunkText_bound_witness :
    (['H', 'i', '.', ' ', 'Y', 'o', '.'] : Str).length ≤ 100 ∨
    (∃ s ∈ sents ['H', 'i', '.', ' ', 'Y', 'o', '.'],
      (['H', 'i', '.', ' ', 'Y', 'o', '.'] : Str) = s ++ ['.'] ∧
      100 < (['H', 'i', '.', ' ', 'Y', 'o', '.'] : Str).length) ∨
    (sents ['H', 'i', '.', ' ', 'Y', 'o', '.'] = [] ∧
      (['H', 'i', '.', ' ', 'Y', 'o', '.'] : Str) = ['H', 'i', '.', ' ', 'Y', 'o', '.']) :=
  chunkText_bound ['H', 'i', '.', ' ', 'Y', 'o', '.'] 100
    ['H', 'i', '.', ' ', 'Y', 'o', '.'] (by decide)

/-- C8: the chunks of `chunkText` partition the trimmed non-empty sentences of
the input, in order: either the text has no non-empty sentence and is returned
whole, or there is a partition of `sents text` into non-empty consecutive
groups such that the chunk list is exactly the groups rendered as
`s1. s2. ... sk.` (the buffer minus its trailing space) — no sentence is
dropped and order is preserved. -/
theorem chunkText_complete (text : Str) (maxChars : Nat) :
    (sents text = [] ∧ chunkText text maxChars = [text]) ∨
    ∃ groups : List (List Str), groups ≠ [] ∧ [] ∉ groups ∧
      groups.flatten = sents text ∧
      chunkText text maxChars = groups.map (fun g => (bufOf g).dropLast) := by
  rcases chunkText_spec text maxChars with h | ⟨groups, hgne, hne, hsent, _, hflat, heq⟩
  · exact Or.inl h
  · refine Or.inr ⟨groups, hgne, fun hmem => hne [] hmem rfl, hflat, ?_⟩
    rw [heq]
    exact List.map_congr_left (fun g hg => strTrim_bufOf (hne g hg) (hsent g hg))

/-- C2: the consolidated graph is well-formed — node ids are pairwise
distinct, no two relationships share the `(source, type, target)` triple, and
every relationship is a non-self-loop whose endpoints are ids of output
nodes. -/
theorem consolidateGraph_wellformed (ns : List GraphNode) (rs : List GraphRelationship)
    (m : List (String × String)) :
    ((consolidateGraph ns rs m).nodes.map GraphNode.id).Nodup ∧
    (consolidateGraph ns rs m).relationships.Pairwise
      (fun a b => ¬ (a.source = b.source ∧ a.type = b.type ∧ a.target = b.target)) ∧
    ∀ r ∈ (consolidateGraph ns rs m).relationships,
      r.source ≠ r.target ∧
      r.source ∈ (consolidateGraph ns rs m).nodes.map GraphNode.id ∧
      r.target ∈ (consolidateGraph ns rs m).nodes.map GraphNode.id := by
  refine ⟨nodePass_nodup m ns,
    keys_nodup_pairwise_triple (relPass_keys_nodup m (nodePass m ns) rs), ?_⟩
  intro r hr
  obtain ⟨h1, ⟨n1, hn1, hid1⟩, ⟨n2, hn2, hid2⟩⟩ := relPass_wf m (nodePass m ns) rs r hr
  exact ⟨h1, List.mem_map.mpr ⟨n1, hn1, hid1⟩, List.mem_map.mpr ⟨n2, hn2, hid2⟩⟩

/-- C2 witness: a concrete kept relationship of a concrete consolidated graph
is a non-self-loop with both endpoints present. -/
theorem consolidateGraph_wellformed_witness :
    (⟨"b", "c", "R", ⟨"d", none⟩⟩ : GraphRelationship).source ≠
      (⟨"b", "c", "R", ⟨"d", none⟩⟩ : GraphRelationship).target ∧
    (⟨"b", "c", "R", ⟨"d", none⟩⟩ : GraphRelationship).source ∈
      (consolidateGraph [⟨"b", "T", ⟨"d", none⟩⟩, ⟨"c", "T", ⟨"d", none⟩⟩]
        [⟨"b", "c", "R", ⟨"d", none⟩⟩] []).nodes.map GraphNode.id ∧
    (⟨"b", "c", "R", ⟨"d", none⟩⟩ : GraphRelationship).target ∈
      (consolidateGraph [⟨"b", "T", ⟨"d", none⟩⟩, ⟨"c", "T", ⟨"d", none⟩⟩]
        [⟨"b", "c", "R", ⟨"d", none⟩⟩] []).nodes.map GraphNode.id :=
  (consolidateGraph_wellformed [⟨"b", "T", ⟨"d", none⟩⟩, ⟨"c", "T", ⟨"d", none⟩⟩]
    [⟨"b", "c", "R", ⟨"d", none⟩⟩] []).2.2 ⟨"b", "c", "R", ⟨"d", none⟩⟩ (by decide)

/-- C1 counterexample: with raw nodes `a : T1` and `b : T2` and the mapping
`b ↦ a`, the node pass keys merging by canonical id alone; the `T2` node is
silently dropped, so two different-typed nodes do not remain distinct — the
claim as stated is false. -/
theorem crossTypeClaim_cex :
    ¬ crossTypeClaim [⟨"a", "T1", ⟨"d", none⟩⟩, ⟨"b", "T2", ⟨"d", none⟩⟩] []
      [("b", "a")] := by
  unfold crossTypeClaim
  decide

/-- C1 (amended): the node pass of `consolidateGraph` keys merging by the
canonical id alone and never consults node types; two raw input nodes remain
distinct nodes exactly when their ids resolve to distinct canonical names.
In particular, for any two raw nodes (of any types) whose resolved ids
differ, both survive as distinct output nodes. -/
theorem consolidate_distinct_of_ne_canonical (ns : List GraphNode)
    (rs : List GraphRelationship) (m : List (String × String)) (n1 n2 : GraphNode)
    (h1 : n1 ∈ ns) (h2 : n2 ∈ ns) (hne : resolveId m n1.id ≠ resolveId m n2.id) :
    ∃ m1 ∈ (consolidateGraph ns rs m).nodes, ∃ m2 ∈ (consolidateGraph ns rs m).nodes,
      m1.id = resolveId m n1.id ∧ m2.id = resolveId m n2.id ∧ m1 ≠ m2 := by
  obtain ⟨m1, hm1, hid1⟩ := nodePass_go_covers m ns [] n1 h1
  obtain ⟨m2, hm2, hid2⟩ := nodePass_go_covers m ns [] n2 h2
  refine ⟨m1, hm1, m2, hm2, hid1, hid2, ?_⟩
  intro hcontra
  rw [hcontra] at hid1
  exact hne (by rw [← hid1, hid2])

/-- C1 witness: two nodes of different types whose ids resolve to distinct
canonical names both survive consolidation as distinct nodes. -/
theorem consolidate_distinct_witness :
    ∃ m1 ∈ (consolidateGraph [⟨"x", "T1", ⟨"d", none⟩⟩, ⟨"y", "T2", ⟨"d", none⟩⟩]
      [] []).nodes,
    ∃ m2 ∈ (consolidateGraph [⟨"x", "T1", ⟨"d", none⟩⟩, ⟨"y", "T2", ⟨"d", none⟩⟩]
      [] []).nodes,
      m1.id = resolveId [] "x" ∧ m2.id = resolveId [] "y" ∧ m1 ≠ m2 :=
  consolidate_distinct_of_ne_canonical _ _ _
    ⟨"x", "T1", ⟨"d", none⟩⟩ ⟨"y", "T2", ⟨"d", none⟩⟩ (by decide) (by decide) (by decide)

/-- C4: running `consolidateGraph` on its own output with the empty mapping
reproduces that output exactly — same nodes in the same order, same
relationships in the same order. -/
theorem consolidateGraph_idempotent (ns : List GraphNode) (rs : List GraphRelationship)
    (m : List (String × String)) :
    consolidateGraph (consolidateGraph ns rs m).nodes
      (consolidateGraph ns rs m).relationships [] = consolidateGraph ns rs m := by
  have hnodes : nodePass [] (consolidateGraph ns rs m).nodes =
      (consolidateGraph ns rs m).nodes := by
    have h := nodePass_nil_of_nodup (consolidateGraph ns rs m).nodes []
      (by simpa using nodePass_nodup m ns)
    simpa using h
  have hrels : relPass [] (consolidateGraph ns rs m).nodes
      (consolidateGraph ns rs m).relationships =
      (consolidateGraph ns rs m).relationships := by
    apply relPass_nil_id
    · intro r hr
      exact relPass_wf m (nodePass m ns) rs r hr
    · exact relPass_keys_nodup m (nodePass m ns) rs
  have hstep : consolidateGraph (consolidateGraph ns rs m).nodes
      (consolidateGraph ns rs m).relationships [] =
      ⟨nodePass [] (consolidateGraph ns rs m).nodes,
       relPass [] (nodePass [] (consolidateGraph ns rs m).nodes)
         (consolidateGraph ns rs m).relationships⟩ := rfl
  rw [hstep, hnodes, hrels]

/-- C5 counterexample: the dedup key joins `source`, `type`, `target` with a
bare `"|"`.  The surviving relationships `("a|b", "c", "d")` and
`("a", "b|c", "d")` have distinct triples but the same key `"a|b|c|d"`, so the
second is dropped although no earlier kept relationship has its triple — the
claim that deduplication is exactly by triple is false on the code. -/
theorem tripleDedupClaim_cex :
    ¬ tripleDedupClaim
      [⟨"a|b", "T", ⟨"d", none⟩⟩, ⟨"d", "T", ⟨"d", none⟩⟩, ⟨"a", "T", ⟨"d", none⟩⟩]
      [⟨"a|b", "d", "c", ⟨"p1", none⟩⟩, ⟨"a", "d", "b|c", ⟨"p2", none⟩⟩] [] := by
  unfold tripleDedupClaim
  decide

/-- C5 (amended): a surviving relationship (not a self-loop after resolution,
with both resolved endpoints present in the final node set) is dropped as a
duplicate if and only if an earlier kept relationship has the same dedup key
`canonicalSource ++ "|" ++ type ++ "|" ++ canonicalTarget`; the kept
relationship carries the first occurrence's properties.  This coincides with
triple-exact deduplication whenever ids and relationship types contain no
`'|'`.  Formally: the relationship pass equals first-occurrence deduplication
by key over the surviving, endpoint-resolved relationships. -/
theorem consolidate_rel_dedup_key (ns : List GraphNode) (rs : List GraphRelationship)
    (m : List (String × String)) :
    (consolidateGraph ns rs m).relationships =
      dedupByKeyFirst (survivingRels m (nodePass m ns) rs) :=
  relPass_eq_dedup m (nodePass m ns) rs

/-- C6: when every chunk-extraction call of a run contributes no entities, the
orchestrator short-circuits — the returned graph is exactly the synthesized
document nodes (one `DOCUMENT` node per input text) with zero relationships,
the Entity Resolver is never invoked, and the final reported progress value is
100 (completion, not an error). -/
theorem orchestrator_no_entities (extractO : Nat → Nat → OracleResponse)
    (mergeO : Nat → Option (List MergedEntity)) (texts : List Str) (aE aR : List String)
    (names : Option (List String))
    (h : ∀ c ∈ chunkCalls extractO texts, (extractFromChunk c.1 aE aR c.2).nodes = []) :
    (processDocumentsToGraph extractO mergeO texts aE aR names).graph =
      ⟨mkDocumentNodes texts names, []⟩ ∧
    (processDocumentsToGraph extractO mergeO texts aE aR names).resolverInvoked = false ∧
    (processDocumentsToGraph extractO mergeO texts aE aR names).events.getLast? =
      some 100 ∧
    (processDocumentsToGraph extractO mergeO texts aE aR names).graph.nodes.length =
      texts.length ∧
    ∀ n ∈ (processDocumentsToGraph extractO mergeO texts aE aR names).graph.nodes,
      n.type = "DOCUMENT" := by
  have hnodes := orchSt1_nodes extractO texts aE aR names h
  have hbranch : (orchSt1 extractO texts aE aR names).allNodes.length ≤
      (mkDocumentNodes texts names).length := by rw [hnodes]
  rw [processDocumentsToGraph_short extractO mergeO texts aE aR names hbranch]
  refine ⟨rfl, rfl, List.getLast?_concat _, ?_, ?_⟩
  · show (mkDocumentNodes texts names).length = texts.length
    unfold mkDocumentNodes
    rw [List.length_map, List.enum_length]
  · intro n hn
    obtain ⟨p, _, rfl⟩ := List.mem_map.mp hn
    rfl

/-- C6 witness: a run over one document whose only extraction call fails
returns exactly the single document node, does not invoke the resolver, and
ends at progress 100. -/
theorem orchestrator_no_entities_witness :
    (processDocumentsToGraph (fun _ _ => OracleResponse.failure) (fun _ => none)
      [['H', 'i', '.']] [] [] none).graph =
      ⟨mkDocumentNodes [['H', 'i', '.']] none, []⟩ ∧
    (processDocumentsToGraph (fun _ _ => OracleResponse.failure) (fun _ => none)
      [['H', 'i', '.']] [] [] none).resolverInvoked = false ∧
    (processDocumentsToGraph (fun _ _ => OracleResponse.failure) (fun _ => none)
      [['H', 'i', '.']] [] [] none).events.getLast? = some 100 ∧
    (processDocumentsToGraph (fun _ _ => OracleResponse.failure) (fun _ => none)
      [['H', 'i', '.']] [] [] none).graph.nodes.length = [['H', 'i', '.']].length ∧
    ∀ n ∈ (processDocumentsToGraph (fun _ _ => OracleResponse.failure) (fun _ => none)
      [['H', 'i', '.']] [] [] none).graph.nodes, n.type = "DOCUMENT" :=
  orchestrator_no_entities (fun _ _ => OracleResponse.failure) (fun _ => none)
    [['H', 'i', '.']] [] [] none (by decide)

/-- C9: a failed oracle call (thrown transport error) and an unparseable
response (`parsed` null) both make `extractFromChunk` return the empty result
`{nodes: [], relationships: []}` instead of propagating the error, for every
chunk text and every allowed-type vocabulary. -/
theorem extractFromChunk_failure_empty (text : Str) (aE aR : List String) :
    extractFromChunk text aE aR OracleResponse.failure = ⟨[], []⟩ ∧
    extractFromChunk text aE aR OracleResponse.nullParsed = ⟨[], []⟩ :=
  ⟨rfl, rfl⟩

/-- C10: the progress callback given to the streaming wrapper
`processDocumentsToGraphWithProgress` is invoked exactly twice — once with 0
before the core pipeline runs and once with 100 after it returns.  The
callback is not forwarded to `processDocumentsToGraph`, so none of the core
run's intermediate per-chunk or per-merge progress values reach it, and the
wrapper still returns the core run's graph. -/
theorem wrapper_progress_events (extractO : Nat → Nat → OracleResponse)
    (mergeO : Nat → Option (List MergedEntity)) (texts : List Str) (aE aR : List String)
    (names : Option (List String)) :
    (processDocumentsToGraphWithProgress extractO mergeO texts aE aR names).2 =
      [0, 100] ∧
    (processDocumentsToGraphWithProgress extractO mergeO texts aE aR names).2.length = 2 ∧
    (processDocumentsToGraphWithProgress extractO mergeO texts aE aR names).1 =
      (processDocumentsToGraph extractO mergeO texts aE aR names).graph :=
  ⟨rfl, rfl, rfl⟩

/-- C7: for every run of the orchestrator, the sequence of progress values
passed to the callback is monotonically non-decreasing, every value lies in
[0, 100], and the final reported value is 100. -/
theorem orchestrator_progress_monotone (extractO : Nat → Nat → OracleResponse)
    (mergeO : Nat → Option (List MergedEntity)) (texts : List Str) (aE aR : List String)
    (names : Option (List String)) :
    (processDocumentsToGraph extractO mergeO texts aE aR names).events.Chain' (· ≤ ·) ∧
    (∀ e ∈ (processDocumentsToGraph extractO mergeO texts aE aR names).events,
      0 ≤ e ∧ e ≤ 100) ∧
    (processDocumentsToGraph extractO mergeO texts aE aR names).events.getLast? =
      some 100 := by
  obtain ⟨lv, hev, hlv70⟩ := orchSt1_evOk extractO texts aE aR names
  have h70 : evOk ((orchSt1 extractO texts aE aR names).events ++ [(70 : ℚ)]) 70 :=
    evOk_snoc hev hlv70 (by norm_num) (by norm_num)
  by_cases hbranch : (orchSt1 extractO texts aE aR names).allNodes.length ≤
      (mkDocumentNodes texts names).length
  · rw [processDocumentsToGraph_short extractO mergeO texts aE aR names hbranch]
    have h100 := evOk_snoc h70 (by norm_num : (70 : ℚ) ≤ 100) (by norm_num) (by norm_num)
    exact ⟨h100.1, h100.2.1, h100.2.2⟩
  · rw [processDocumentsToGraph_merge extractO mergeO texts aE aR names hbranch]
    have h75 : evOk ((orchSt1 extractO texts aE aR names).events ++ [(70 : ℚ)]
        ++ [(75 : ℚ)]) 75 :=
      evOk_snoc h70 (by norm_num) (by norm_num) (by norm_num)
    set nonDoc := (orchSt1 extractO texts aE aR names).allNodes.filter
      (fun nd => nd.type != "DOCUMENT") with hnd
    set MEv := (mergeEntitiesWithLLM mergeO nonDoc).2 with hM
    by_cases hn1 : nonDoc.length ≤ 1
    · have hMnil : MEv = [] := by rw [hM]; exact mergeEvents_nil hn1
      rw [hMnil]
      have hre : (orchSt1 extractO texts aE aR names).events ++ [(70 : ℚ)] ++ [(75 : ℚ)]
          ++ (([] : List ℚ).map (fun p => 75 + p * (15 / 100 : ℚ))) ++ [(90 : ℚ), 100] =
          (((orchSt1 extractO texts aE aR names).events ++ [(70 : ℚ)] ++ [(75 : ℚ)])
            ++ [(90 : ℚ)]) ++ [(100 : ℚ)] := by
        simp [List.append_assoc]
      rw [hre]
      have h90 := evOk_snoc h75 (by norm_num : (75 : ℚ) ≤ 90) (by norm_num) (by norm_num)
      have h100 := evOk_snoc h90 (by norm_num : (90 : ℚ) ≤ 100) (by norm_num) (by norm_num)
      exact ⟨h100.1, h100.2.1, h100.2.2⟩
    · obtain ⟨hch, hbd, hhd, hlst⟩ := mergeEvents_ok mergeO nonDoc hn1
      have hmono : ∀ a b : ℚ, a ≤ b → 75 + a * (15 / 100 : ℚ) ≤ 75 + b * (15 / 100 : ℚ) := by
        intro a b hab
        have := mul_le_mul_of_nonneg_right hab (by norm_num : (0 : ℚ) ≤ 15 / 100)
        linarith
      have hchW : (MEv.map (fun p => 75 + p * (15 / 100 : ℚ))).Chain' (· ≤ ·) :=
        (List.chain'_map _).mpr (hch.imp hmono)
      have hbdW : ∀ e ∈ MEv.map (fun p => 75 + p * (15 / 100 : ℚ)), 0 ≤ e ∧ e ≤ 100 := by
        intro e he
        obtain ⟨x, hx, rfl⟩ := List.mem_map.mp he
        obtain ⟨hx0, hx100⟩ := hbd x hx
        constructor
        · have := mul_nonneg hx0 (by norm_num : (0 : ℚ) ≤ 15 / 100)
          linarith
        · have := mul_le_mul_of_nonneg_right hx100 (by norm_num : (0 : ℚ) ≤ 15 / 100)
          linarith
      have hlstW : (MEv.map (fun p => 75 + p * (15 / 100 : ℚ))).getLast? = some 90 := by
        rw [List.getLast?_map, hlst]
        simp
        norm_num
      have hhdW : (MEv.map (fun p => 75 + p * (15 / 100 : ℚ))).head? = some 75 := by
        rw [List.head?_map, hhd]
        simp
      have hW : evOk ((orchSt1 extractO texts aE aR names).events ++ [(70 : ℚ)]
          ++ [(75 : ℚ)] ++ MEv.map (fun p => 75 + p * (15 / 100 : ℚ))) 90 :=
        evOk_append h75 hchW hbdW hlstW hhdW (le_refl 75)
      have h90 := evOk_snoc hW (by norm_num : (90 : ℚ) ≤ 90) (by norm_num) (by norm_num)
      have h100 := evOk_snoc h90 (by norm_num : (90 : ℚ) ≤ 100) (by norm_num) (by norm_num)
      have hre : (orchSt1 extractO texts aE aR names).events ++ [(70 : ℚ)] ++ [(75 : ℚ)]
          ++ MEv.map (fun p => 75 + p * (15 / 100 : ℚ)) ++ [(90 : ℚ), 100] =
          ((((orchSt1 extractO texts aE aR names).events ++ [(70 : ℚ)] ++ [(75 : ℚ)]
            ++ MEv.map (fun p => 75 + p * (15 / 100 : ℚ))) ++ [(90 : ℚ)]) ++ [(100 : ℚ)]) := by
        simp [List.append_assoc]
      rw [hre]
      exact ⟨h100.1, h100.2.1, h100.2.2⟩

/-- C7 witness: in the concrete run over no documents the reported value 70
is within bounds, by the monotonicity theorem. -/
theorem orchestrator_progress_witness :
    (0 : ℚ) ≤ 70 ∧ (70 : ℚ) ≤ 100 :=
  (orchestrator_progress_monotone (fun _ _ => OracleResponse.failure) (fun _ => none)
    [] [] [] none).2.1 70 (by decide)
